import Mathlib

/-!
Verification of the photo-cleaner tool (src/main.rs): discovery of JPEG
files, matching against a raw-file tree, deletion-plan construction and
the apply stage.  Paths are modelled as lists of components; the
filesystem as the list of existing paths (for existence probes and
deletion) together with a directory tree (for recursive traversal).
-/

namespace PhotoCleaner

/-- Paths are sequences of components, mirroring std path components. -/
abbrev Path := List String

/-- The set of paths that exist on disk, used by existence probes. -/
abbrev Fs := List Path

/-- Existence probe: mirrors std Path exists. -/
def fsExists (fs : Fs) (p : Path) : Bool := decide (p ∈ fs)

/-- Character-wise lower-casing (ASCII letters, as in the extensions the
program handles), applied over the underlying character list. -/
def strLower (s : String) : String := ⟨s.data.map Char.toLower⟩

/-- Character-wise upper-casing, mirroring str to_uppercase on the ASCII
extension constants the program feeds it. -/
def strUpper (s : String) : String := ⟨s.data.map Char.toUpper⟩

/-- Rust std semantics of splitting a file name into stem and extension:
the extension is the part after the last dot, none when there is no dot
or the only dot is leading. -/
def splitStemExt (name : String) : String × Option String :=
  let cs := name.data
  let after := cs.reverse.takeWhile (fun c => !(c == '.'))
  if after.length == cs.length then
    (name, none)
  else if cs.length - after.length - 1 == 0 then
    (name, none)
  else
    (⟨cs.take (cs.length - after.length - 1)⟩, some ⟨after.reverse⟩)

/-- Mirrors Path file_stem: the stem of the last component. -/
def file_stem (p : Path) : Option String :=
  p.getLast?.map (fun n => (splitStemExt n).1)

/-- Mirrors Path extension: the extension of the last component. -/
def pathExtension (p : Path) : Option String :=
  p.getLast?.bind (fun n => (splitStemExt n).2)

/-- Mirrors Path strip, which removes a component-wise root. -/
def pathStripRoot (p root : Path) : Option Path :=
  if root.isPrefixOf p then some (p.drop root.length) else none

/-- Mirrors Path parent: drop the last component; none for the empty path. -/
def parent (p : Path) : Option Path :=
  match p with
  | [] => none
  | x :: xs => some ((x :: xs).dropLast)

/-- is_jpeg from src/main.rs lines 104-111. -/
def is_jpeg (p : Path) : Bool :=
  match pathExtension p with
  | some ext => strLower ext == "jpg" || strLower ext == "jpeg"
  | none => false

/-- A directory tree entry, as traversed by the directory walker. -/
inductive FsTree where
  | file (name : String) : FsTree
  | dir (name : String) (children : List FsTree) : FsTree

mutual
/-- All entries reachable from one tree entry, paired with an
is-regular-file flag, in depth-first traversal order. -/
def walkTree (base : Path) : FsTree → List (Path × Bool)
  | FsTree.file n => [(base ++ [n], true)]
  | FsTree.dir n cs => (base ++ [n], false) :: walkForest (base ++ [n]) cs

/-- All entries reachable from a list of sibling tree entries. -/
def walkForest (base : Path) : List FsTree → List (Path × Bool)
  | [] => []
  | t :: ts => walkTree base t ++ walkForest base ts
end

/-- get_jpeg_files from src/main.rs lines 113-126: walk the compressed
root and keep the regular files whose extension is a JPEG one. -/
def get_jpeg_files (compressed_root : Path) (entries : List FsTree) : List Path :=
  (((compressed_root, false) :: walkForest compressed_root entries).filter
    (fun e => e.2 && is_jpeg e.1)).map (fun e => e.1)

/-- The probed raw extension list of src/main.rs lines 144-146. -/
def raw_extensions : List String :=
  ["raf", "cr2", "cr3", "nef", "arw", "dng", "orf", "rw2", "raw"]

/-- Candidate file name built by the format string on line 149. -/
def candName (stem ext : String) : String := stem ++ "." ++ ext

/-- The probing loop of src/main.rs lines 148-161: for each extension,
try the lower-case spelling then the upper-case spelling, returning the
first existing path. -/
def probeRaw (fs : Fs) (raw_dir : Path) (stem : String) : List String → Option Path
  | [] => none
  | e :: rest =>
    let pl := raw_dir ++ [candName stem e]
    if fsExists fs pl then some pl
    else
      let pu := raw_dir ++ [candName stem (strUpper e)]
      if fsExists fs pu then some pu
      else probeRaw fs raw_dir stem rest

/-- find_matching_raw from src/main.rs lines 128-164. -/
def find_matching_raw (fs : Fs) (compressed_file compressed_root raw_root : Path) :
    Option Path :=
  match pathStripRoot compressed_file compressed_root with
  | none => none
  | some relative_path =>
    match parent relative_path with
    | none => none
    | some parent_dir =>
      match file_stem compressed_file with
      | none => none
      | some stem =>
        let raw_dir := raw_root ++ parent_dir
        if fsExists fs raw_dir then probeRaw fs raw_dir stem raw_extensions
        else none

/-- Instrumented probing loop recording every existence check performed. -/
def probeRawTrace (fs : Fs) (raw_dir : Path) (stem : String) :
    List String → Option Path × List Path
  | [] => (none, [])
  | e :: rest =>
    let pl := raw_dir ++ [candName stem e]
    if fsExists fs pl then (some pl, [pl])
    else
      let pu := raw_dir ++ [candName stem (strUpper e)]
      if fsExists fs pu then (some pu, [pl, pu])
      else
        let r := probeRawTrace fs raw_dir stem rest
        (r.1, pl :: pu :: r.2)

/-- Instrumented find_matching_raw recording every path whose existence
the function checks, in order. -/
def find_matching_raw_trace (fs : Fs) (compressed_file compressed_root raw_root : Path) :
    Option Path × List Path :=
  match pathStripRoot compressed_file compressed_root with
  | none => (none, [])
  | some relative_path =>
    match parent relative_path with
    | none => (none, [])
    | some parent_dir =>
      match file_stem compressed_file with
      | none => (none, [])
      | some stem =>
        let raw_dir := raw_root ++ parent_dir
        if fsExists fs raw_dir then
          let r := probeRawTrace fs raw_dir stem raw_extensions
          (r.1, raw_dir :: r.2)
        else (none, [raw_dir])

/-- The full ordered candidate list for a set of extensions: for each
extension, the lower-case spelling then the upper-case spelling. -/
def extCandidates (raw_dir : Path) (stem : String) (exts : List String) : List Path :=
  exts.flatMap
    (fun e => [raw_dir ++ [candName stem e], raw_dir ++ [candName stem (strUpper e)]])

/-- The candidates probed when probing stops at the first existing one. -/
def probeUntilHit (fs : Fs) : List Path → List Path
  | [] => []
  | c :: cs => if fsExists fs c then [c] else c :: probeUntilHit fs cs

/-- DeleteMode from src/main.rs lines 50-54. -/
inductive DeleteMode where
  | Orphaned : DeleteMode
  | Matched : DeleteMode
deriving DecidableEq

/-- One console message; constructors mirror the print statements of
clean_photos in order of appearance. -/
inductive Msg where
  | scanning (root : Path) : Msg
  | foundCount (n : Nat) : Msg
  | matchLine (jpeg raw : Path) : Msg
  | noMatchLine (jpeg : Path) : Msg
  | summaryTotals (total matched unmatched : Nat) : Msg
  | modeLine (m : DeleteMode) : Msg
  | nothingToDelete (m : DeleteMode) : Msg
  | dryRunSummary (n : Nat) : Msg
  | dryRunList (files : List Path) : Msg
  | deletingCount (n : Nat) : Msg
  | deletedFile (f : Path) : Msg
  | errDeleting (f : Path) : Msg
  | errCount (n : Nat) : Msg
  | successAll (n : Nat) : Msg
deriving DecidableEq

/-- Accumulator of the matching loop: the deletion list, the matched
counter and the verbose per-file messages. -/
structure PlanAcc where
  to_delete : List Path
  matched_count : Nat
  msgs : List Msg
deriving DecidableEq

/-- The matching loop of clean_photos, src/main.rs lines 186-206: for
each JPEG in order, query the matcher, count matches, emit the verbose
line, and push the file onto the deletion list when the mode selects it. -/
def buildPlan (m : Path → Option Path) (mode : DeleteMode)
    (verbose summary_only : Bool) : List Path → PlanAcc
  | [] => ⟨[], 0, []⟩
  | j :: rest =>
    let acc := buildPlan m mode verbose summary_only rest
    match m j with
    | some raw_file =>
      ⟨(match mode with
        | DeleteMode.Matched => j :: acc.to_delete
        | DeleteMode.Orphaned => acc.to_delete),
       acc.matched_count + 1,
       (if verbose && !summary_only then Msg.matchLine j raw_file :: acc.msgs
        else acc.msgs)⟩
    | none =>
      ⟨(match mode with
        | DeleteMode.Orphaned => j :: acc.to_delete
        | DeleteMode.Matched => acc.to_delete),
       acc.matched_count,
       (if verbose && !summary_only then Msg.noMatchLine j :: acc.msgs
        else acc.msgs)⟩

/-- Accumulator of the deletion loop: the filesystem after the attempts,
the failed paths, every path attempted in order, and the messages. -/
structure ApplyAcc where
  fs : Fs
  errors : List Path
  attempted : List Path
  msgs : List Msg

/-- The deletion loop of clean_photos, src/main.rs lines 246-258: each
planned file gets exactly one remove attempt; an attempt succeeds when
the file exists and the OS does not refuse (failSet models OS refusals
such as permissions); a failure is recorded and the loop continues. -/
def applyDeletions (verbose summary_only : Bool) (failSet : List Path) :
    Fs → List Path → ApplyAcc
  | fs, [] => ⟨fs, [], [], []⟩
  | fs, f :: rest =>
    if fsExists fs f && !(decide (f ∈ failSet)) then
      let acc := applyDeletions verbose summary_only failSet
        (fs.filter (fun q => decide (q ≠ f))) rest
      ⟨acc.fs, acc.errors, f :: acc.attempted,
       (if verbose && !summary_only then Msg.deletedFile f :: acc.msgs
        else acc.msgs)⟩
    else
      let acc := applyDeletions verbose summary_only failSet fs rest
      ⟨acc.fs, f :: acc.errors, f :: acc.attempted, Msg.errDeleting f :: acc.msgs⟩

/-- The observable outcome of one clean_photos run. -/
structure CleanResult where
  fs : Fs
  total : Nat
  matched_count : Nat
  unmatched_count : Nat
  to_delete : List Path
  errors : List Path
  attempted : List Path
  output : List Msg

/-- clean_photos from src/main.rs lines 166-266: discover the JPEGs,
build the deletion plan and counts, then either return early when the
plan is empty, report the plan when dry_run is set, or run the deletion
loop.  Nat subtraction is saturating, matching saturating_sub. -/
def clean_photos (raw_root compressed_root : Path) (tree : List FsTree)
    (fs0 : Fs) (failSet : List Path)
    (dry_run verbose summary_only : Bool) (mode : DeleteMode) : CleanResult :=
  let jpeg_files := get_jpeg_files compressed_root tree
  let plan := buildPlan (fun j => find_matching_raw fs0 j compressed_root raw_root)
    mode verbose summary_only jpeg_files
  let total := jpeg_files.length
  let unmatched_count := total - plan.matched_count
  let header : List Msg :=
    Msg.scanning compressed_root :: Msg.foundCount total :: plan.msgs ++
      [Msg.summaryTotals total plan.matched_count unmatched_count, Msg.modeLine mode]
  if plan.to_delete.isEmpty then
    ⟨fs0, total, plan.matched_count, unmatched_count, plan.to_delete, [], [],
     header ++ [Msg.nothingToDelete mode]⟩
  else if dry_run then
    ⟨fs0, total, plan.matched_count, unmatched_count, plan.to_delete, [], [],
     header ++ (if summary_only then [Msg.dryRunSummary plan.to_delete.length]
                else [Msg.dryRunList plan.to_delete])⟩
  else
    let app := applyDeletions verbose summary_only failSet fs0 plan.to_delete
    ⟨app.fs, total, plan.matched_count, unmatched_count, plan.to_delete,
     app.errors, app.attempted,
     header ++ Msg.deletingCount plan.to_delete.length :: app.msgs ++
       (if app.errors.isEmpty then [Msg.successAll plan.to_delete.length]
        else [Msg.errCount app.errors.length])⟩

/-! Helper lemmas. -/

theorem extCandidates_cons (rd : Path) (st e : String) (rest : List String) :
    extCandidates rd st (e :: rest) =
      (rd ++ [candName st e]) :: (rd ++ [candName st (strUpper e)]) ::
        extCandidates rd st rest := by
  simp [extCandidates]

theorem mem_extCandidates (rd : Path) (st : String) (exts : List String) (c : Path) :
    c ∈ extCandidates rd st exts ↔
      ∃ e ∈ exts, c = rd ++ [candName st e] ∨ c = rd ++ [candName st (strUpper e)] := by
  simp [extCandidates]

theorem probeRaw_eq_find? (fs : Fs) (rd : Path) (st : String) (exts : List String) :
    probeRaw fs rd st exts = (extCandidates rd st exts).find? (fun p => fsExists fs p) := by
  induction exts with
  | nil => rfl
  | cons e rest ih =>
    rw [extCandidates_cons]
    by_cases h1 : fsExists fs (rd ++ [candName st e]) = true
    · simp [probeRaw, List.find?_cons, h1]
    · by_cases h2 : fsExists fs (rd ++ [candName st (strUpper e)]) = true
      · simp [probeRaw, List.find?_cons, h1, h2]
      · simp [probeRaw, List.find?_cons, h1, h2, ih]

theorem probeRawTrace_fst (fs : Fs) (rd : Path) (st : String) (exts : List String) :
    (probeRawTrace fs rd st exts).1 = probeRaw fs rd st exts := by
  induction exts with
  | nil => rfl
  | cons e rest ih =>
    by_cases h1 : fsExists fs (rd ++ [candName st e]) = true
    · simp [probeRawTrace, probeRaw, h1]
    · by_cases h2 : fsExists fs (rd ++ [candName st (strUpper e)]) = true
      · simp [probeRawTrace, probeRaw, h1, h2]
      · simp [probeRawTrace, probeRaw, h1, h2, ih]

theorem probeRawTrace_snd (fs : Fs) (rd : Path) (st : String) (exts : List String) :
    (probeRawTrace fs rd st exts).2 = probeUntilHit fs (extCandidates rd st exts) := by
  induction exts with
  | nil => rfl
  | cons e rest ih =>
    rw [extCandidates_cons]
    by_cases h1 : fsExists fs (rd ++ [candName st e]) = true
    · simp [probeRawTrace, probeUntilHit, h1]
    · by_cases h2 : fsExists fs (rd ++ [candName st (strUpper e)]) = true
      · simp [probeRawTrace, probeUntilHit, h1, h2]
      · simp [probeRawTrace, probeUntilHit, h1, h2, ih]

theorem find_matching_raw_trace_fst (fs : Fs) (cf cr rr : Path) :
    (find_matching_raw_trace fs cf cr rr).1 = find_matching_raw fs cf cr rr := by
  cases hs : pathStripRoot cf cr with
  | none => simp [find_matching_raw_trace, find_matching_raw, hs]
  | some rel =>
    cases hp : parent rel with
    | none => simp [find_matching_raw_trace, find_matching_raw, hs, hp]
    | some par =>
      cases hst : file_stem cf with
      | none => simp [find_matching_raw_trace, find_matching_raw, hs, hp, hst]
      | some st =>
        by_cases h : fsExists fs (rr ++ par) = true
        · simp [find_matching_raw_trace, find_matching_raw, hs, hp, hst, h,
            probeRawTrace_fst]
        · simp [find_matching_raw_trace, find_matching_raw, hs, hp, hst, h]

theorem candName_inj (st : String) {a b : String} (h : candName st a = candName st b) :
    a = b := by
  have hd : (candName st a).data = (candName st b).data := by rw [h]
  simp only [candName] at hd
  have hd' : (st ++ ".").data ++ a.data = (st ++ ".").data ++ b.data := by
    simpa [String.data_append] using hd
  exact String.ext (List.append_cancel_left hd')

theorem find_matching_raw_eq (fs : Fs) (cf cr rr rel par : Path) (st : String)
    (h1 : pathStripRoot cf cr = some rel) (h2 : parent rel = some par)
    (h3 : file_stem cf = some st) (h4 : fsExists fs (rr ++ par) = true) :
    find_matching_raw fs cf cr rr =
      (extCandidates (rr ++ par) st raw_extensions).find? (fun p => fsExists fs p) := by
  simp [find_matching_raw, h1, h2, h3, h4, probeRaw_eq_find?]

theorem find_matching_raw_trace_eq (fs : Fs) (cf cr rr rel par : Path) (st : String)
    (h1 : pathStripRoot cf cr = some rel) (h2 : parent rel = some par)
    (h3 : file_stem cf = some st) (h4 : fsExists fs (rr ++ par) = true) :
    (find_matching_raw_trace fs cf cr rr).2 =
      (rr ++ par) :: probeUntilHit fs (extCandidates (rr ++ par) st raw_extensions) := by
  simp [find_matching_raw_trace, h1, h2, h3, h4, probeRawTrace_snd]

theorem fsExists_iff (fs : Fs) (p : Path) : fsExists fs p = true ↔ p ∈ fs := by
  simp [fsExists]

theorem mem_buildPlan_orphaned (m : Path → Option Path) (v so : Bool)
    (js : List Path) (j : Path) :
    j ∈ (buildPlan m DeleteMode.Orphaned v so js).to_delete ↔ j ∈ js ∧ m j = none := by
  induction js with
  | nil => simp [buildPlan]
  | cons a rest ih =>
    cases hm : m a with
    | some r =>
      simp only [buildPlan, hm, ih, List.mem_cons]
      constructor
      · rintro ⟨hj, hn⟩
        exact ⟨Or.inr hj, hn⟩
      · rintro ⟨rfl | hj, hn⟩
        · rw [hm] at hn; cases hn
        · exact ⟨hj, hn⟩
    | none =>
      simp only [buildPlan, hm, List.mem_cons, ih]
      constructor
      · rintro (rfl | ⟨hj, hn⟩)
        · exact ⟨Or.inl rfl, hm⟩
        · exact ⟨Or.inr hj, hn⟩
      · rintro ⟨rfl | hj, hn⟩
        · exact Or.inl rfl
        · exact Or.inr ⟨hj, hn⟩

theorem mem_buildPlan_matched (m : Path → Option Path) (v so : Bool)
    (js : List Path) (j : Path) :
    j ∈ (buildPlan m DeleteMode.Matched v so js).to_delete ↔
      j ∈ js ∧ (m j).isSome = true := by
  induction js with
  | nil => simp [buildPlan]
  | cons a rest ih =>
    cases hm : m a with
    | some r =>
      simp only [buildPlan, hm, List.mem_cons, ih]
      constructor
      · rintro (rfl | ⟨hj, hn⟩)
        · exact ⟨Or.inl rfl, by simp [hm]⟩
        · exact ⟨Or.inr hj, hn⟩
      · rintro ⟨rfl | hj, hn⟩
        · exact Or.inl rfl
        · exact Or.inr ⟨hj, hn⟩
    | none =>
      simp only [buildPlan, hm, ih, List.mem_cons]
      constructor
      · rintro ⟨hj, hn⟩
        exact ⟨Or.inr hj, hn⟩
      · rintro ⟨rfl | hj, hn⟩
        · rw [hm] at hn; cases hn
        · exact ⟨hj, hn⟩

theorem buildPlan_matched_le (m : Path → Option Path) (mode : DeleteMode)
    (v so : Bool) (js : List Path) :
    (buildPlan m mode v so js).matched_count ≤ js.length := by
  induction js with
  | nil => simp [buildPlan]
  | cons a rest ih =>
    cases hm : m a with
    | some r =>
      simp only [buildPlan, hm, List.length_cons]
      omega
    | none =>
      simp only [buildPlan, hm, List.length_cons]
      omega

theorem applyDeletions_attempted (v so : Bool) (fl : List Path) (fs : Fs)
    (td : List Path) : (applyDeletions v so fl fs td).attempted = td := by
  induction td generalizing fs with
  | nil => rfl
  | cons f rest ih =>
    by_cases h : (fsExists fs f && !(decide (f ∈ fl))) = true
    · simp [applyDeletions, h, ih]
    · simp [applyDeletions, h, ih]

theorem applyDeletions_errors_subset (v so : Bool) (fl : List Path) (fs : Fs)
    (td : List Path) (f : Path) :
    f ∈ (applyDeletions v so fl fs td).errors → f ∈ td := by
  induction td generalizing fs with
  | nil => intro h; simp [applyDeletions] at h
  | cons g rest ih =>
    intro h
    by_cases hc : (fsExists fs g && !(decide (g ∈ fl))) = true
    · simp only [applyDeletions, if_pos hc] at h
      exact List.mem_cons_of_mem g (ih _ h)
    · simp only [applyDeletions, if_neg hc, List.mem_cons] at h
      rcases h with rfl | h
      · exact List.mem_cons_self f rest
      · exact List.mem_cons_of_mem g (ih _ h)

theorem applyDeletions_errors_msg (v so : Bool) (fl : List Path) (fs : Fs)
    (td : List Path) (f : Path) :
    f ∈ (applyDeletions v so fl fs td).errors →
      Msg.errDeleting f ∈ (applyDeletions v so fl fs td).msgs := by
  induction td generalizing fs with
  | nil => intro h; simp [applyDeletions] at h
  | cons g rest ih =>
    intro h
    by_cases hc : (fsExists fs g && !(decide (g ∈ fl))) = true
    · simp only [applyDeletions, if_pos hc] at h ⊢
      by_cases hv : (v && !so) = true
      · simp only [if_pos hv, List.mem_cons]
        exact Or.inr (ih _ h)
      · simp only [if_neg hv]
        exact ih _ h
    · simp only [applyDeletions, if_neg hc, List.mem_cons] at h ⊢
      rcases h with rfl | h
      · exact Or.inl rfl
      · exact Or.inr (ih _ h)

theorem applyDeletions_not_exists (v so : Bool) (fl : List Path) (fs : Fs)
    (td : List Path) (f : Path) (hf : fsExists fs f = false) :
    fsExists (applyDeletions v so fl fs td).fs f = false := by
  induction td generalizing fs with
  | nil => simpa [applyDeletions] using hf
  | cons g rest ih =>
    by_cases hc : (fsExists fs g && !(decide (g ∈ fl))) = true
    · simp only [applyDeletions, if_pos hc]
      apply ih
      simp only [fsExists, decide_eq_false_iff_not, List.mem_filter] at hf ⊢
      rintro ⟨hmem, _⟩
      exact hf hmem
    · simp only [applyDeletions, if_neg hc]
      exact ih _ hf

theorem applyDeletions_success_removed (v so : Bool) (fl : List Path) (fs : Fs)
    (td : List Path) (f : Path) (hmem : f ∈ td)
    (herr : f ∉ (applyDeletions v so fl fs td).errors) :
    fsExists (applyDeletions v so fl fs td).fs f = false := by
  induction td generalizing fs with
  | nil => cases hmem
  | cons g rest ih =>
    by_cases hc : (fsExists fs g && !(decide (g ∈ fl))) = true
    · simp only [applyDeletions, if_pos hc] at herr ⊢
      by_cases hr : f ∈ rest
      · exact ih _ hr herr
      · have hfg : f = g := by
          rcases List.mem_cons.mp hmem with h | h
          · exact h
          · exact absurd h hr
        subst hfg
        apply applyDeletions_not_exists
        simp [fsExists, List.mem_filter]
    · simp only [applyDeletions, if_neg hc, List.mem_cons, not_or] at herr ⊢
      rcases List.mem_cons.mp hmem with h | h
      · exact absurd h herr.1
      · exact ih _ h herr.2

theorem extCandidates_append (rd : Path) (st : String) (l1 l2 : List String) :
    extCandidates rd st (l1 ++ l2) = extCandidates rd st l1 ++ extCandidates rd st l2 := by
  simp [extCandidates]

theorem find?_append_left_none {α : Type} {p : α → Bool} {l1 : List α} (l2 : List α)
    (h : ∀ x ∈ l1, p x = false) : (l1 ++ l2).find? p = l2.find? p := by
  induction l1 with
  | nil => rfl
  | cons a l ih =>
    have ha : p a = false := h a (List.mem_cons_self a l)
    rw [List.cons_append, List.find?_cons_of_neg _ (by simp [ha]),
      ih (fun x hx => h x (List.mem_cons_of_mem a hx))]

theorem find?_append_left_some {α : Type} {p : α → Bool} {l1 : List α} (l2 : List α)
    (h : (l1.find? p).isSome = true) : (l1 ++ l2).find? p = l1.find? p := by
  induction l1 with
  | nil => simp at h
  | cons a l ih =>
    by_cases ha : p a = true
    · rw [List.cons_append, List.find?_cons_of_pos _ ha, List.find?_cons_of_pos _ ha]
    · rw [List.find?_cons_of_neg _ ha] at h
      rw [List.cons_append, List.find?_cons_of_neg _ ha, List.find?_cons_of_neg _ ha,
        ih h]

theorem probeUntilHit_subset (fs : Fs) (l : List Path) (p : Path)
    (h : p ∈ probeUntilHit fs l) : p ∈ l := by
  induction l with
  | nil => simp [probeUntilHit] at h
  | cons c cs ih =>
    by_cases hc : fsExists fs c = true
    · simp only [probeUntilHit, if_pos hc, List.mem_singleton] at h
      exact h ▸ List.mem_cons_self c cs
    · simp only [probeUntilHit, if_neg hc, List.mem_cons] at h
      rcases h with rfl | h
      · exact List.mem_cons_self p cs
      · exact List.mem_cons_of_mem c (ih h)

theorem is_jpeg_iff (p : Path) :
    is_jpeg p = true ↔
      ∃ e, pathExtension p = some e ∧ (strLower e = "jpg" ∨ strLower e = "jpeg") := by
  unfold is_jpeg
  cases h : pathExtension p with
  | none => simp
  | some e => simp [h]

theorem append_singleton_inj {rd : Path} {a b : String}
    (h : rd ++ [a] = rd ++ [b]) : a = b := by
  have h2 := List.append_cancel_left h
  simpa using h2

/-! The claims. -/

/-- Claim C1: when the candidate raw directory exists, matching probes the
candidates <stem>.<ext> over the fixed extension priority order raf, cr2,
cr3, nef, arw, dng, orf, rw2, raw, lower-case spelling before upper-case,
returns the first existing candidate, and probes nothing past the first
hit; in particular an existing lower-case raf candidate is returned. -/
theorem claim_c1_probe_priority (fs : Fs) (cf cr rr rel par : Path) (st : String)
    (h1 : pathStripRoot cf cr = some rel) (h2 : parent rel = some par)
    (h3 : file_stem cf = some st) (h4 : fsExists fs (rr ++ par) = true) :
    find_matching_raw fs cf cr rr =
      (extCandidates (rr ++ par) st raw_extensions).find? (fun p => fsExists fs p)
    ∧ (find_matching_raw_trace fs cf cr rr).2 =
        (rr ++ par) :: probeUntilHit fs (extCandidates (rr ++ par) st raw_extensions)
    ∧ (fsExists fs ((rr ++ par) ++ [candName st "raf"]) = true →
        find_matching_raw fs cf cr rr = some ((rr ++ par) ++ [candName st "raf"])) := by
  refine ⟨find_matching_raw_eq fs cf cr rr rel par st h1 h2 h3 h4,
    find_matching_raw_trace_eq fs cf cr rr rel par st h1 h2 h3 h4, ?_⟩
  intro h5
  rw [find_matching_raw_eq fs cf cr rr rel par st h1 h2 h3 h4,
    show raw_extensions = "raf" :: ["cr2", "cr3", "nef", "arw", "dng", "orf", "rw2", "raw"]
      from rfl, extCandidates_cons]
  exact List.find?_cons_of_pos _ h5

/-- Claim C1 witness: in a concrete world holding both IMG_1.raf and
IMG_1.cr2, the raf path is returned. -/
theorem claim_c1_probe_priority_witness :
    find_matching_raw [["r", "sub"], ["r", "sub", "IMG_1.raf"], ["r", "sub", "IMG_1.cr2"]]
        ["c", "sub", "IMG_1.jpg"] ["c"] ["r"] =
      some ((["r"] ++ ["sub"]) ++ [candName "IMG_1" "raf"]) :=
  (claim_c1_probe_priority
    [["r", "sub"], ["r", "sub", "IMG_1.raf"], ["r", "sub", "IMG_1.cr2"]]
    ["c", "sub", "IMG_1.jpg"] ["c"] ["r"] ["sub", "IMG_1.jpg"] ["sub"] "IMG_1"
    (by decide) (by decide) (by decide) (by decide)).2.2 (by decide)

/-- Claim C4 counterexample: the name IMG_1.Raf differs from the listed
extension raf only in the case of its letters, the candidate raw
directory exists and holds that file, yet matching returns no match —
probing is not case-insensitive for arbitrary case mixtures. -/
theorem claim_c4_counterexample :
    strLower "Raf" = "raf" ∧ "Raf" ≠ "raf" ∧ "Raf" ≠ strUpper "raf" ∧
      find_matching_raw [["r"], ["r", "IMG_1.Raf"]] ["c", "IMG_1.jpg"] ["c"] ["r"]
        = none := by
  decide

/-- Claim C4 as amended: extension probing checks exactly the lower-case
spelling and the all-upper-case spelling of each listed extension; a raw
file named <stem>.<s> with s either of those two spellings of a listed
extension is matched (other case mixtures are not probed). -/
theorem claim_c4_amended (fs : Fs) (cf cr rr rel par : Path) (st : String)
    (h1 : pathStripRoot cf cr = some rel) (h2 : parent rel = some par)
    (h3 : file_stem cf = some st) (h4 : fsExists fs (rr ++ par) = true)
    (e s : String) (he : e ∈ raw_extensions) (hs : s = e ∨ s = strUpper e)
    (hex : fsExists fs ((rr ++ par) ++ [candName st s]) = true) :
    (find_matching_raw fs cf cr rr).isSome = true := by
  rw [find_matching_raw_eq fs cf cr rr rel par st h1 h2 h3 h4, List.find?_isSome]
  refine ⟨(rr ++ par) ++ [candName st s], ?_, hex⟩
  rw [mem_extCandidates]
  rcases hs with hs | hs
  · exact ⟨e, he, Or.inl (by rw [hs])⟩
  · exact ⟨e, he, Or.inr (by rw [hs])⟩

/-- Claim C4 amended witness: a concrete upper-case NEF file is matched. -/
theorem claim_c4_amended_witness :
    (find_matching_raw [["r", "sub"], ["r", "sub", "IMG_1.NEF"]]
      ["c", "sub", "IMG_1.jpg"] ["c"] ["r"]).isSome = true :=
  claim_c4_amended [["r", "sub"], ["r", "sub", "IMG_1.NEF"]]
    ["c", "sub", "IMG_1.jpg"] ["c"] ["r"] ["sub", "IMG_1.jpg"] ["sub"] "IMG_1"
    (by decide) (by decide) (by decide) (by decide) "nef" "NEF"
    (by decide) (Or.inr (by decide)) (by decide)

/-- Claim C5: when the candidate raw directory does not exist, matching
returns no match, and the only existence probe performed is the probe of
the directory itself — no individual candidate file is probed. -/
theorem claim_c5_missing_dir (fs : Fs) (cf cr rr rel par : Path) (st : String)
    (h1 : pathStripRoot cf cr = some rel) (h2 : parent rel = some par)
    (h3 : file_stem cf = some st) (h4 : fsExists fs (rr ++ par) = false) :
    find_matching_raw fs cf cr rr = none
    ∧ (find_matching_raw_trace fs cf cr rr).2 = [rr ++ par] := by
  constructor
  · simp [find_matching_raw, h1, h2, h3, h4]
  · simp [find_matching_raw_trace, h1, h2, h3, h4]

/-- Claim C5 witness: concrete run where the raw directory is missing. -/
theorem claim_c5_missing_dir_witness :
    find_matching_raw [["x"]] ["c", "sub", "IMG_1.jpg"] ["c"] ["r"] = none
    ∧ (find_matching_raw_trace [["x"]] ["c", "sub", "IMG_1.jpg"] ["c"] ["r"]).2 =
        [["r"] ++ ["sub"]] :=
  claim_c5_missing_dir [["x"]] ["c", "sub", "IMG_1.jpg"] ["c"] ["r"]
    ["sub", "IMG_1.jpg"] ["sub"] "IMG_1" (by decide) (by decide) (by decide) (by decide)

/-- Claim C9: when stripping the compressed root from the JPEG path
fails, matching returns no match and touches no path at all; and when
stripping succeeds, every path probed lies under the raw root joined
with the relative parent directory. -/
theorem claim_c9_relative_path (fs : Fs) (cf cr rr : Path) :
    (pathStripRoot cf cr = none →
      find_matching_raw fs cf cr rr = none
      ∧ (find_matching_raw_trace fs cf cr rr).2 = [])
    ∧ (∀ rel par, pathStripRoot cf cr = some rel → parent rel = some par →
        ∀ p ∈ (find_matching_raw_trace fs cf cr rr).2, ∃ t, p = (rr ++ par) ++ t) := by
  constructor
  · intro h
    exact ⟨by simp [find_matching_raw, h], by simp [find_matching_raw_trace, h]⟩
  · intro rel par hs hp p hmem
    cases hst : file_stem cf with
    | none => simp [find_matching_raw_trace, hs, hp, hst] at hmem
    | some st =>
      by_cases h4 : fsExists fs (rr ++ par) = true
      · rw [find_matching_raw_trace_eq fs cf cr rr rel par st hs hp hst h4] at hmem
        rcases List.mem_cons.mp hmem with rfl | hmem
        · exact ⟨[], (List.append_nil _).symm⟩
        · have hc := probeUntilHit_subset fs _ p hmem
          rw [mem_extCandidates] at hc
          obtain ⟨e, _, hc | hc⟩ := hc
          · exact ⟨[candName st e], hc⟩
          · exact ⟨[candName st (strUpper e)], hc⟩
      · have h4' : fsExists fs (rr ++ par) = false := by
          simpa using h4
        simp only [find_matching_raw_trace, hs, hp, hst, h4', Bool.false_eq_true,
          if_false, List.mem_singleton] at hmem
        exact ⟨[], by simp [hmem]⟩

/-- Claim C9 witness: a JPEG path outside the compressed root yields no
match and no probes; in a normal run the probes stay under the raw dir. -/
theorem claim_c9_relative_path_witness :
    find_matching_raw [["r"]] ["d", "IMG_1.jpg"] ["c"] ["r"] = none
    ∧ (find_matching_raw_trace [["r"]] ["d", "IMG_1.jpg"] ["c"] ["r"]).2 = [] :=
  (claim_c9_relative_path [["r"]] ["d", "IMG_1.jpg"] ["c"] ["r"]).1 (by decide)

theorem extCandidates_dropLast_ne_raw (rd : Path) (st : String) (c : Path)
    (hc : c ∈ extCandidates rd st raw_extensions.dropLast) :
    c ≠ rd ++ [candName st "raw"] ∧ c ≠ rd ++ [candName st "RAW"] := by
  rw [mem_extCandidates] at hc
  obtain ⟨e, he, rfl | rfl⟩ := hc
  · rw [show raw_extensions.dropLast =
      ["raf", "cr2", "cr3", "nef", "arw", "dng", "orf", "rw2"] from rfl] at he
    constructor <;> intro h <;> have hx := candName_inj st (append_singleton_inj h) <;>
      fin_cases he <;> exact absurd hx (by decide)
  · rw [show raw_extensions.dropLast =
      ["raf", "cr2", "cr3", "nef", "arw", "dng", "orf", "rw2"] from rfl] at he
    constructor <;> intro h <;> have hx := candName_inj st (append_singleton_inj h) <;>
      fin_cases he <;> exact absurd hx (by decide)

/-- Claim C10: the probed extension list carries the literal raw
extension as ninth, lowest-priority entry; when the JPEG's stem has a
.raw or .RAW file in the candidate raw directory the matcher succeeds,
and the returned match is that raw-extension file exactly when no
earlier-listed extension has an existing candidate for the stem. -/
theorem claim_c10_raw_ninth (fs : Fs) (cf cr rr rel par : Path) (st : String)
    (h1 : pathStripRoot cf cr = some rel) (h2 : parent rel = some par)
    (h3 : file_stem cf = some st) (h4 : fsExists fs (rr ++ par) = true)
    (hraw : fsExists fs ((rr ++ par) ++ [candName st "raw"]) = true ∨
            fsExists fs ((rr ++ par) ++ [candName st "RAW"]) = true) :
    raw_extensions = ["raf", "cr2", "cr3", "nef", "arw", "dng", "orf", "rw2"] ++ ["raw"]
    ∧ (find_matching_raw fs cf cr rr).isSome = true
    ∧ ((∀ c ∈ extCandidates (rr ++ par) st raw_extensions.dropLast,
          fsExists fs c = false) →
        (find_matching_raw fs cf cr rr = some ((rr ++ par) ++ [candName st "raw"]) ∨
         find_matching_raw fs cf cr rr = some ((rr ++ par) ++ [candName st "RAW"])))
    ∧ ((∃ c ∈ extCandidates (rr ++ par) st raw_extensions.dropLast,
          fsExists fs c = true) →
        (find_matching_raw fs cf cr rr ≠ some ((rr ++ par) ++ [candName st "raw"]) ∧
         find_matching_raw fs cf cr rr ≠ some ((rr ++ par) ++ [candName st "RAW"]))) := by
  have hsplit : extCandidates (rr ++ par) st raw_extensions =
      extCandidates (rr ++ par) st raw_extensions.dropLast ++
        [(rr ++ par) ++ [candName st "raw"], (rr ++ par) ++ [candName st "RAW"]] := by
    rw [show raw_extensions = raw_extensions.dropLast ++ ["raw"] from rfl,
      extCandidates_append]
    rfl
  refine ⟨rfl, ?_, ?_, ?_⟩
  · rw [find_matching_raw_eq fs cf cr rr rel par st h1 h2 h3 h4, List.find?_isSome]
    rcases hraw with hl | hu
    · exact ⟨(rr ++ par) ++ [candName st "raw"], by
        rw [mem_extCandidates]
        exact ⟨"raw", by decide, Or.inl rfl⟩, hl⟩
    · refine ⟨(rr ++ par) ++ [candName st "RAW"], ?_, hu⟩
      rw [mem_extCandidates]
      refine ⟨"raw", by decide, Or.inr ?_⟩
      rw [show strUpper "raw" = "RAW" from by decide]
  · intro hall
    rw [find_matching_raw_eq fs cf cr rr rel par st h1 h2 h3 h4, hsplit,
      find?_append_left_none _ hall]
    by_cases hl : fsExists fs ((rr ++ par) ++ [candName st "raw"]) = true
    · left
      exact List.find?_cons_of_pos _ hl
    · right
      have hu : fsExists fs ((rr ++ par) ++ [candName st "RAW"]) = true := by
        rcases hraw with h | h
        · exact absurd h hl
        · exact h
      rw [List.find?_cons_of_neg _ hl]
      exact List.find?_cons_of_pos _ hu
  · rintro ⟨c, hc, hcex⟩
    have hsome : ((extCandidates (rr ++ par) st raw_extensions.dropLast).find?
        (fun p => fsExists fs p)).isSome = true :=
      List.find?_isSome.mpr ⟨c, hc, hcex⟩
    rw [find_matching_raw_eq fs cf cr rr rel par st h1 h2 h3 h4, hsplit,
      find?_append_left_some _ hsome]
    obtain ⟨c0, hc0⟩ := Option.isSome_iff_exists.mp hsome
    have hc0mem := List.mem_of_find?_eq_some hc0
    have hne := extCandidates_dropLast_ne_raw (rr ++ par) st c0 hc0mem
    rw [hc0]
    constructor <;> intro h <;> rw [Option.some.injEq] at h
    · exact hne.1 h
    · exact hne.2 h

/-- Claim C10 witness: with only IMG_1.raw present the raw path is
returned; the matcher succeeds. -/
theorem claim_c10_raw_ninth_witness :
    (find_matching_raw [["r", "sub"], ["r", "sub", "IMG_1.raw"]]
      ["c", "sub", "IMG_1.jpg"] ["c"] ["r"]).isSome = true :=
  (claim_c10_raw_ninth [["r", "sub"], ["r", "sub", "IMG_1.raw"]]
    ["c", "sub", "IMG_1.jpg"] ["c"] ["r"] ["sub", "IMG_1.jpg"] ["sub"] "IMG_1"
    (by decide) (by decide) (by decide) (by decide) (Or.inl (by decide))).2.1

/-- Claim C6: discovery returns exactly the regular files reachable by
recursive descent under the compressed root whose lower-cased extension
is jpg or jpeg; the four case variants are included identically while
missing or other extensions are excluded. -/
theorem claim_c6_discovery (root : Path) (tree : List FsTree) (p : Path) :
    (p ∈ get_jpeg_files root tree ↔
      ((p, true) ∈ walkForest root tree
       ∧ ∃ e, pathExtension p = some e ∧ (strLower e = "jpg" ∨ strLower e = "jpeg")))
    ∧ is_jpeg ["x.jpg"] = true ∧ is_jpeg ["x.JPG"] = true
    ∧ is_jpeg ["x.jpeg"] = true ∧ is_jpeg ["x.JPEG"] = true
    ∧ is_jpeg ["x"] = false ∧ is_jpeg ["x.png"] = false := by
  refine ⟨?_, by decide, by decide, by decide, by decide, by decide, by decide⟩
  rw [← is_jpeg_iff]
  unfold get_jpeg_files
  simp only [List.mem_map, List.mem_filter, List.mem_cons, Bool.and_eq_true]
  constructor
  · rintro ⟨⟨q, b⟩, ⟨hmem, hb, hj⟩, rfl⟩
    dsimp only at hb hj ⊢
    subst hb
    rcases hmem with heq | hmem
    · simp at heq
    · exact ⟨hmem, hj⟩
  · rintro ⟨hmem, hj⟩
    exact ⟨(p, true), ⟨Or.inr hmem, rfl, hj⟩, rfl⟩

/-- Claim C6 witness: concrete tree where exactly the JPEG-extension
regular files are discovered. -/
theorem claim_c6_discovery_witness :
    ["c", "sub", "b.JPEG"] ∈
        get_jpeg_files ["c"]
          [FsTree.file "a.jpg", FsTree.dir "sub" [FsTree.file "b.JPEG", FsTree.file "c.png"]]
      ↔ ((["c", "sub", "b.JPEG"], true) ∈
          walkForest ["c"]
            [FsTree.file "a.jpg", FsTree.dir "sub" [FsTree.file "b.JPEG", FsTree.file "c.png"]]
         ∧ ∃ e, pathExtension ["c", "sub", "b.JPEG"] = some e
             ∧ (strLower e = "jpg" ∨ strLower e = "jpeg")) :=
  (claim_c6_discovery ["c"]
    [FsTree.file "a.jpg", FsTree.dir "sub" [FsTree.file "b.JPEG", FsTree.file "c.png"]]
    ["c", "sub", "b.JPEG"]).1

/-- Claim C2: for any fixed matching outcome, the orphaned-mode plan and
the matched-mode plan partition the discovered set — every discovered
JPEG lies in exactly one of the two. -/
theorem claim_c2_partition (m : Path → Option Path) (v so : Bool)
    (js : List Path) (j : Path) :
    (j ∈ js ↔
      (j ∈ (buildPlan m DeleteMode.Orphaned v so js).to_delete ∨
       j ∈ (buildPlan m DeleteMode.Matched v so js).to_delete))
    ∧ ¬(j ∈ (buildPlan m DeleteMode.Orphaned v so js).to_delete ∧
        j ∈ (buildPlan m DeleteMode.Matched v so js).to_delete) := by
  rw [mem_buildPlan_orphaned, mem_buildPlan_matched]
  constructor
  · constructor
    · intro hj
      cases hm : m j with
      | none => exact Or.inl ⟨hj, rfl⟩
      | some r => exact Or.inr ⟨hj, rfl⟩
    · rintro (⟨hj, _⟩ | ⟨hj, _⟩) <;> exact hj
  · rintro ⟨⟨_, hn⟩, ⟨_, hs⟩⟩
    rw [hn] at hs
    simp at hs

/-- Claim C2 witness: one-element discovered set, unmatched, selected by
orphaned mode or matched mode exactly once. -/
theorem claim_c2_partition_witness :
    ["a.jpg"] ∈ ([["a.jpg"]] : List Path) ↔
      (["a.jpg"] ∈ (buildPlan (fun _ => none) DeleteMode.Orphaned false false
          [["a.jpg"]]).to_delete ∨
       ["a.jpg"] ∈ (buildPlan (fun _ => none) DeleteMode.Matched false false
          [["a.jpg"]]).to_delete) :=
  (claim_c2_partition (fun _ => none) false false [["a.jpg"]] ["a.jpg"]).1

/-- Claim C8: the reported counts always satisfy total = matched plus
unmatched, with unmatched computed by saturating subtraction. -/
theorem claim_c8_counts (rr cr : Path) (tree : List FsTree) (fs0 failSet : List Path)
    (dry v so : Bool) (mode : DeleteMode) (res : CleanResult)
    (h : clean_photos rr cr tree fs0 failSet dry v so mode = res) :
    res.total = res.matched_count + res.unmatched_count
    ∧ res.unmatched_count = res.total - res.matched_count := by
  subst h
  have hle := buildPlan_matched_le
    (fun j => find_matching_raw fs0 j cr rr) mode v so (get_jpeg_files cr tree)
  simp only [clean_photos]
  split
  · refine ⟨?_, rfl⟩
    dsimp only
    omega
  · split
    · refine ⟨?_, rfl⟩
      dsimp only
      omega
    · refine ⟨?_, rfl⟩
      dsimp only
      omega

/-- Claim C8 witness: counts line up on a concrete run. -/
theorem claim_c8_counts_witness :
    (clean_photos ["r"] ["c"] [FsTree.file "a.jpg"] [["r"]] [] false false false
        DeleteMode.Orphaned).total =
      (clean_photos ["r"] ["c"] [FsTree.file "a.jpg"] [["r"]] [] false false false
        DeleteMode.Orphaned).matched_count +
      (clean_photos ["r"] ["c"] [FsTree.file "a.jpg"] [["r"]] [] false false false
        DeleteMode.Orphaned).unmatched_count :=
  (claim_c8_counts ["r"] ["c"] [FsTree.file "a.jpg"] [["r"]] [] false false false
    DeleteMode.Orphaned _ rfl).1

/-- Claim C3: with the dry-run flag set, regardless of mode and plan, no
deletion is attempted, the filesystem is unchanged (so every discovered
JPEG still exists), no error is recorded, and only the plan is reported:
the count when summary-only is set, the full file list otherwise. -/
theorem claim_c3_dry_run (rr cr : Path) (tree : List FsTree) (fs0 failSet : List Path)
    (v so : Bool) (mode : DeleteMode) (res : CleanResult)
    (h : clean_photos rr cr tree fs0 failSet true v so mode = res) :
    res.fs = fs0
    ∧ res.errors = [] ∧ res.attempted = []
    ∧ (∀ p, fsExists res.fs p = fsExists fs0 p)
    ∧ (∀ p, p ∈ get_jpeg_files cr tree → fsExists fs0 p = true →
        fsExists res.fs p = true)
    ∧ (res.to_delete ≠ [] →
        (so = true → Msg.dryRunSummary res.to_delete.length ∈ res.output)
        ∧ (so = false → Msg.dryRunList res.to_delete ∈ res.output)) := by
  subst h
  simp only [clean_photos]
  split
  · rename_i he
    refine ⟨rfl, rfl, rfl, fun p => rfl, fun p _ hp => hp, ?_⟩
    intro hne
    exact absurd (List.isEmpty_iff.mp he) hne
  · rw [if_pos trivial]
    refine ⟨rfl, rfl, rfl, fun p => rfl, fun p _ hp => hp, ?_⟩
    intro hne
    constructor
    · rintro rfl
      simp [List.mem_append]
    · rintro rfl
      simp [List.mem_append]

/-- Claim C3 witness: concrete dry run leaves the filesystem untouched. -/
theorem claim_c3_dry_run_witness :
    (clean_photos ["r"] ["c"] [FsTree.file "a.jpg"] [["c", "a.jpg"]] [] true false false
      DeleteMode.Orphaned).fs = [["c", "a.jpg"]] :=
  (claim_c3_dry_run ["r"] ["c"] [FsTree.file "a.jpg"] [["c", "a.jpg"]] [] false false
    DeleteMode.Orphaned _ rfl).1

/-- Claim C7: in a non-dry run every planned file is attempted exactly
once and in plan order even when earlier attempts fail, every failure is
recorded with its path, every successfully deleted file is gone from the
filesystem, and a nonzero failure count is reported at the end. -/
theorem claim_c7_batch (rr cr : Path) (tree : List FsTree) (fs0 failSet : List Path)
    (v so : Bool) (mode : DeleteMode) (res : CleanResult)
    (h : clean_photos rr cr tree fs0 failSet false v so mode = res) :
    res.attempted = res.to_delete
    ∧ (∀ f, f ∈ res.errors → f ∈ res.to_delete)
    ∧ (∀ f, f ∈ res.errors → Msg.errDeleting f ∈ res.output)
    ∧ (∀ f, f ∈ res.to_delete → f ∉ res.errors → fsExists res.fs f = false)
    ∧ (res.errors ≠ [] → Msg.errCount res.errors.length ∈ res.output) := by
  subst h
  simp only [clean_photos]
  split
  · rename_i he
    have he' := List.isEmpty_iff.mp he
    dsimp only
    refine ⟨he'.symm, ?_, ?_, ?_, ?_⟩
    · intro f hf
      simp at hf
    · intro f hf
      simp at hf
    · intro f hf
      rw [he'] at hf
      simp at hf
    · intro hne
      exact absurd rfl hne
  · rw [if_neg (fun hh : false = true => by cases hh)]
    dsimp only
    refine ⟨applyDeletions_attempted v so failSet fs0 _, ?_, ?_, ?_, ?_⟩
    · intro f hf
      exact applyDeletions_errors_subset v so failSet fs0 _ f hf
    · intro f hf
      have hm := applyDeletions_errors_msg v so failSet fs0 _ f hf
      apply List.mem_append_left
      apply List.mem_append_right
      exact List.mem_cons_of_mem _ hm
    · intro f hf hnf
      exact applyDeletions_success_removed v so failSet fs0 _ f hf hnf
    · intro hne
      apply List.mem_append_right
      rw [if_neg (fun hh => hne (List.isEmpty_iff.mp hh))]
      exact List.mem_singleton.mpr rfl

/-- Claim C7 witness: one locked file among two planned ones; the other
is still attempted and removed, and the failure count is reported. -/
theorem claim_c7_batch_witness :
    (clean_photos ["r"] ["c"] [FsTree.file "a.jpg", FsTree.file "b.jpg"]
        [["c", "a.jpg"], ["c", "b.jpg"]] [["c", "a.jpg"]] false false false
        DeleteMode.Orphaned).attempted =
      (clean_photos ["r"] ["c"] [FsTree.file "a.jpg", FsTree.file "b.jpg"]
        [["c", "a.jpg"], ["c", "b.jpg"]] [["c", "a.jpg"]] false false false
        DeleteMode.Orphaned).to_delete :=
  (claim_c7_batch ["r"] ["c"] [FsTree.file "a.jpg", FsTree.file "b.jpg"]
    [["c", "a.jpg"], ["c", "b.jpg"]] [["c", "a.jpg"]] false false
    DeleteMode.Orphaned _ rfl).1

end PhotoCleaner
